import Mathlib

/-
Shallow embedding of llsub (src/llsub/llsub.py): the text-block batcher,
the translation adapter's marker substitution, the cue reconstructor, the
bilingual merger and the file identity resolver, together with proofs
checking the specification's claims about them.

Cue texts and file paths are modelled as lists of characters.  The Python
string operations the source uses (split on a two-character separator,
replace, strip, join) are embedded as executable functions with Python
semantics for the patterns the source actually uses.
-/

namespace LLSub

/-- Cue text and file paths are modelled as lists of characters. -/
abbrev Str := List Char

/-- The exact set of code points for which Python's str.isspace() is true
(Unicode categories Zs, Zl, Zp plus bidirectional classes WS, B, S):
U+0009-U+000D, U+001C-U+001F, space, U+0085, U+00A0, U+1680,
U+2000-U+200A, U+2028, U+2029, U+202F, U+205F and U+3000.  Python's
no-argument str.strip() strips exactly these characters. -/
def pythonWhitespace : List Char :=
  [' ', '\t', '\n', '\x0b', '\x0c', '\r', '\x1c', '\x1d', '\x1e', '\x1f',
   '\x85', '\xa0', '\u1680', '\u2000', '\u2001', '\u2002', '\u2003', '\u2004',
   '\u2005', '\u2006', '\u2007', '\u2008', '\u2009', '\u200a', '\u2028',
   '\u2029', '\u202f', '\u205f', '\u3000']

/-- Python whitespace test: true exactly on the characters str.isspace()
accepts, so that strip() and the merger's line.strip() filter behave as
the program does on every character, non-breaking spaces included. -/
def isPySpace (c : Char) : Bool := pythonWhitespace.contains c

/-- Boolean test that `pat` is a prefix of `s` (first argument is the
string, second the pattern). -/
def startsWith : Str → Str → Bool
  | _, [] => true
  | [], _ :: _ => false
  | c :: s, p :: ps => c == p && startsWith s ps

/-- Boolean test that `pat` occurs as a contiguous substring of `s`. -/
def hasSub (pat : Str) : Str → Bool
  | [] => pat.isEmpty
  | c :: rest => startsWith (c :: rest) pat || hasSub pat rest

/-- Python str.lstrip() for whitespace. -/
def lstrip (s : Str) : Str := s.dropWhile isPySpace

/-- Python str.rstrip() for whitespace. -/
def rstrip (s : Str) : Str := (s.reverse.dropWhile isPySpace).reverse

/-- Python str.strip() for whitespace, as called on line 72 of the source. -/
def pyStrip (s : Str) : Str := rstrip (lstrip s)

/-- Python sep.join(xs). -/
def pyJoin (sep : Str) : List Str → Str
  | [] => []
  | [x] => x
  | x :: xs => x ++ (sep ++ pyJoin sep xs)

/-- Prepend a character to the first segment of a split result (the `[]`
case never arises: a split result is never empty). -/
def cons_head (c : Char) : List Str → List Str
  | seg :: more => (c :: seg) :: more
  | [] => [[c]]

/-- Python s.split(sep) for a two-character separator `[a, b]`; the source
only ever splits on the two-character strings "\N" and "\n\n".  Matches are
found greedily left to right and are non-overlapping, as in Python. -/
def pySplit (a b : Char) : Str → List Str
  | [] => [[]]
  | [c] => [[c]]
  | c0 :: c1 :: rest =>
    if c0 = a ∧ c1 = b then [] :: pySplit a b rest
    else cons_head c0 (pySplit a b (c1 :: rest))

/-- Python s.replace(pat, rep) for a two-character pattern `[p0, p1]` (the
adapter replaces the two-character strings "\N" and "--").  Occurrences are
replaced greedily left to right, non-overlapping, and the replacement text
is not rescanned, as in Python. -/
def pyReplace2 (p0 p1 : Char) (r : Str) : Str → Str
  | c0 :: c1 :: rest =>
    if c0 = p0 ∧ c1 = p1 then r ++ pyReplace2 p0 p1 r rest
    else c0 :: pyReplace2 p0 p1 r (c1 :: rest)
  | s => s

/-- Lowercase-letter test, matching the regex character class [a-z]. -/
def isLowerAlpha (c : Char) : Bool := decide ('a' ≤ c ∧ c ≤ 'z')

/-- The seven-character tag pattern ".ab.srt" that the resolver searches
for and substitutes. -/
def tagPat (a b : Char) : Str := ['.', a, b, '.', 's', 'r', 't']

/-- Python file_path.replace(".l1l2.srt", ".m1m2.srt"): str.replace
specialized to the seven-character tag patterns built from two-letter
language codes, the only patterns the source passes to replace here.
Occurrences are replaced greedily left to right, non-overlapping. -/
def replace_tag (l1 l2 m1 m2 : Char) : Str → Str
  | c0 :: c1 :: c2 :: c3 :: c4 :: c5 :: c6 :: rest =>
    if startsWith (c0 :: c1 :: c2 :: c3 :: c4 :: c5 :: c6 :: rest) (tagPat l1 l2)
    then tagPat m1 m2 ++ replace_tag l1 l2 m1 m2 rest
    else c0 :: replace_tag l1 l2 m1 m2 (c1 :: c2 :: c3 :: c4 :: c5 :: c6 :: rest)
  | s => s

/-- Model of a pysubs2.SSAEvent: timing plus the raw cue text (cue text
uses the literal two-character marker backslash-N for line breaks). -/
structure SSAEvent where
  start : Nat
  stop : Nat
  text : Str
deriving DecidableEq

/-- The two-newline separator appended after every cue text in a block. -/
def nn : Str := ['\n', '\n']

/-- Loop state of SRTFile._create_text_blocks (lines 129-138): the running
block `current` and the finished `blocks`, folded over the events. -/
def create_text_blocks_go (maxChars : Nat) : List SSAEvent → Str → List Str → List Str
  | [], current, blocks => blocks ++ [current]
  | e :: rest, current, blocks =>
    if current.length + e.text.length < maxChars then
      create_text_blocks_go maxChars rest (current ++ (e.text ++ nn)) blocks
    else
      create_text_blocks_go maxChars rest (e.text ++ nn) (blocks ++ [current])

/-- SRTFile._create_text_blocks (lines 121-140): the Text Block Batcher.
The last running block is appended unconditionally (line 138). -/
def create_text_blocks (subs : List SSAEvent) (maxChars : Nat) : List Str :=
  create_text_blocks_go maxChars subs [] []

/-- original_event.text.split("\\N") (line 195). -/
def original_lines (s : Str) : List Str := pySplit '\\' 'N' s

/-- translated_event.text.split("\\N") with empty or whitespace-only
segments discarded (lines 198-200): `if line.strip()` keeps exactly the
segments that are non-empty after stripping. -/
def translated_lines (s : Str) : List Str :=
  (pySplit '\\' 'N' s).filter (fun l => !(pyStrip l).isEmpty)

/-- The merged text for one original/translated cue pair (lines 202-222 of
SRTFile._create_merged_ssa_file): interleave pairwise when the line counts
match, otherwise all original lines, a blank line (the "\r\n\r\n"), then
all translated lines parenthesized. -/
def merged_cue_text (origText transText : Str) : Str :=
  if (original_lines origText).length = (translated_lines transText).length then
    ((original_lines origText).zip (translated_lines transText)).foldl
      (fun acc p => acc ++ (p.1 ++ ('\n' :: '(' :: (p.2 ++ [')', '\r', '\n', '\r', '\n'])))) []
  else
    (pyJoin ['\n'] (original_lines origText) ++ ['\r', '\n', '\r', '\n']) ++
      pyJoin ['\n'] ((translated_lines transText).map (fun l => '(' :: (l ++ [')'])))

/-- SRTFile._create_merged_ssa_file (lines 179-231): one merged event per
original/translated pair, keeping the original cue's timing.  The inner
zip is strict=True in the source; the caller has already checked that the
cue counts are equal. -/
def create_merged_ssa_file (orig trans : List SSAEvent) : List SSAEvent :=
  (orig.zip trans).map fun p =>
    { start := p.1.start, stop := p.1.stop, text := merged_cue_text p.1.text p.2.text }

/-- The message of the ValueError raised on a cue-count mismatch
(lines 103-106). -/
def merge_error_message : String :=
  "Subtitle files have different number of events; cannot merge."

/-- SRTFile.generate_merged_subtitles (lines 89-119), the raised ValueError
modelled as Except.error.  The length check precedes the construction of
any merged event, so on the error branch no merged value exists at all;
writing to disk (which only happens after the merged file is built) is
outside the model. -/
def generate_merged_subtitles (orig trans : List SSAEvent) : Except String (List SSAEvent) :=
  if orig.length ≠ trans.length then Except.error merge_error_message
  else Except.ok (create_merged_ssa_file orig trans)

/-- Lines 71-72 of generate_translated_subtitles: join the translated
blocks with "\n\n", strip, and split on "\n\n" to recover one text segment
per cue. -/
def reconstruct_translated_events (translated_blocks : List Str) : List Str :=
  pySplit '\n' '\n' (pyStrip (pyJoin nn translated_blocks))

/-- text_block.replace("\\N", "--") (line 159 of _translate_text_blocks). -/
def substitute_marker (s : Str) : Str := pyReplace2 '\\' 'N' ['-', '-'] s

/-- translated_text_temp.replace("--", "\\N") (line 162 of
_translate_text_blocks). -/
def reverse_marker (s : Str) : Str := pyReplace2 '-' '-' ['\\', 'N'] s

/-- SRTFile._extract_language (lines 34-45): the regex \.([a-z]{2})\.srt$
matches exactly when the last seven characters have the form
".ab.srt" with a and b lowercase letters; the two letters are returned,
and a failure to match (a raised ValueError in the source) is none. -/
def extract_language (p : Str) : Option (Char × Char) :=
  match p.reverse with
  | 't' :: 'r' :: 's' :: '.' :: b :: a :: '.' :: _ =>
    if isLowerAlpha a && isLowerAlpha b then some (a, b) else none
  | _ => none

/-- SRTFile.get_file_path_for_language (lines 167-177), specialized to
two-letter codes: the extracted tag is always two letters, and the claims
quantify over valid two-letter targets. -/
def get_file_path_for_language (file_path : Str) (l1 l2 m1 m2 : Char) : Str :=
  replace_tag l1 l2 m1 m2 file_path

/-- The File Identity Resolver on one path: extract the path's language
tag (none when the name does not encode one, a fatal error in the source)
and substitute the target tag for it. -/
def resolve_path (p : Str) (m1 m2 : Char) : Option Str :=
  (extract_language p).map fun l => get_file_path_for_language p l.1 l.2 m1 m2

/-- Claim-side form of one interleaved group of the merger: the original
line, then on the next line the parenthesized translated line, then the
blank line. -/
def interleaved_group (p : Str × Str) : Str :=
  p.1 ++ ('\n' :: '(' :: (p.2 ++ [')', '\r', '\n', '\r', '\n']))

/-- Reference batcher following the specification's words (claim C5):
greedy accumulate-then-flush over cue texts; before adding a cue, if the
running block's current length plus the candidate cue's length would reach
or exceed the maximum, flush the running block and start a new one with
the candidate cue; the final non-empty running block is appended. -/
def greedy_accumulate_flush_go (maxChars : Nat) : List Str → Str → List Str → List Str
  | [], current, blocks => if current = [] then blocks else blocks ++ [current]
  | t :: rest, current, blocks =>
    if maxChars ≤ current.length + t.length then
      greedy_accumulate_flush_go maxChars rest (t ++ nn) (blocks ++ [current])
    else
      greedy_accumulate_flush_go maxChars rest (current ++ (t ++ nn)) blocks

/-- The specification's reference definition of the Text Block Batcher. -/
def greedy_accumulate_flush_spec (texts : List Str) (maxChars : Nat) : List Str :=
  greedy_accumulate_flush_go maxChars texts [] []

/-- Discard a trailing empty element of a split result, as the
specification's recovery procedure prescribes. -/
def discard_trailing_empty (xs : List Str) : List Str :=
  if xs.getLast? = some [] then xs.dropLast else xs

/-- Claim C4's recovery procedure: concatenate all blocks, split on the
double newline, and discard a trailing empty element. -/
def recover_cue_texts (blocks : List Str) : List Str :=
  discard_trailing_empty (pySplit '\n' '\n' blocks.flatten)

/-- Concatenation of cue texts, each followed by the separator: the total
content of a batch run, independent of where the block boundaries fall. -/
def sep_concat (ts : List Str) : Str := (ts.map (fun t => t ++ nn)).flatten

/-- The first character exists and is not whitespace. -/
def starts_nonspace : Str → Bool
  | [] => false
  | c :: _ => !isPySpace c

/-- The last character exists and is not whitespace. -/
def ends_nonspace (s : Str) : Bool := starts_nonspace s.reverse

/-! ### Basic lemmas about the embedded string operations -/

theorem cons_head_ne_nil (c : Char) (xs : List Str) : cons_head c xs ≠ [] := by
  cases xs <;> simp [cons_head]

theorem pySplit_ne_nil (a b : Char) (s : Str) : pySplit a b s ≠ [] := by
  match s with
  | [] => simp [pySplit]
  | [c] => simp [pySplit]
  | c0 :: c1 :: rest =>
    simp only [pySplit]
    split
    · simp
    · exact cons_head_ne_nil _ _

theorem hasSub_cons (pat : Str) (c : Char) (s : Str) :
    hasSub pat (c :: s) = (startsWith (c :: s) pat || hasSub pat s) := rfl

theorem hasSub_cons_false {pat : Str} {c : Char} {s : Str}
    (h : hasSub pat (c :: s) = false) :
    startsWith (c :: s) pat = false ∧ hasSub pat s = false := by
  rw [hasSub_cons] at h
  exact ⟨by revert h; cases startsWith (c :: s) pat <;> simp,
         by revert h; cases hasSub pat s <;> simp⟩

theorem startsWith_pair (c0 c1 : Char) (s : Str) (a b : Char) :
    startsWith (c0 :: c1 :: s) [a, b] = (c0 == a && c1 == b) := by
  simp [startsWith]

theorem sep_window_false {c0 c1 : Char} {s : Str}
    (h : hasSub nn (c0 :: c1 :: s) = false) : ¬(c0 = '\n' ∧ c1 = '\n') := by
  rintro ⟨rfl, rfl⟩
  have h1 := (hasSub_cons_false h).1
  rw [show nn = ['\n', '\n'] from rfl, startsWith_pair] at h1
  simp at h1

theorem pySplit_append_sep (t r : Str) (h1 : hasSub nn t = false)
    (h2 : t.getLast? ≠ some '\n') :
    pySplit '\n' '\n' (t ++ ('\n' :: '\n' :: r)) = t :: pySplit '\n' '\n' r := by
  induction t with
  | nil => simp [pySplit]
  | cons c0 tail ih =>
    cases tail with
    | nil =>
      have hc : ¬ c0 = '\n' := fun h => h2 (by simp [h])
      simp [pySplit, hc, cons_head]
    | cons c1 tail' =>
      have hcc := sep_window_false h1
      have h1' : hasSub nn (c1 :: tail') = false := (hasSub_cons_false h1).2
      have h2' : (c1 :: tail').getLast? ≠ some '\n' := by
        rwa [List.getLast?_cons_cons] at h2
      have key := ih h1' h2'
      rw [List.cons_append] at key
      simp only [List.cons_append, pySplit]
      rw [if_neg hcc]
      show cons_head c0 (pySplit '\n' '\n' (c1 :: (tail' ++ ('\n' :: '\n' :: r)))) =
        (c0 :: c1 :: tail') :: pySplit '\n' '\n' r
      rw [key]
      rfl

theorem pySplit_no_sep (t : Str) (h1 : hasSub nn t = false) :
    pySplit '\n' '\n' t = [t] := by
  induction t with
  | nil => simp [pySplit]
  | cons c0 tail ih =>
    cases tail with
    | nil => simp [pySplit]
    | cons c1 tail' =>
      have hcc := sep_window_false h1
      have h1' : hasSub nn (c1 :: tail') = false := (hasSub_cons_false h1).2
      simp only [pySplit]
      rw [if_neg hcc, ih h1']
      rfl

theorem sep_concat_nil : sep_concat [] = [] := rfl

theorem sep_concat_cons (t : Str) (ts : List Str) :
    sep_concat (t :: ts) = (t ++ nn) ++ sep_concat ts := by
  simp [sep_concat]

/-! ### The batcher: content and block-size lemmas -/

theorem create_text_blocks_go_flatten (M : Nat) (subs : List SSAEvent) :
    ∀ (cur : Str) (blocks : List Str),
      (create_text_blocks_go M subs cur blocks).flatten =
        blocks.flatten ++ (cur ++ sep_concat (subs.map SSAEvent.text)) := by
  induction subs with
  | nil =>
    intro cur blocks
    simp [create_text_blocks_go, sep_concat_nil]
  | cons e rest ih =>
    intro cur blocks
    simp only [create_text_blocks_go, List.map_cons, sep_concat_cons]
    split
    · rw [ih]
      simp [List.append_assoc]
    · rw [ih]
      simp [List.append_assoc]

theorem create_text_blocks_flatten (subs : List SSAEvent) (M : Nat) :
    (create_text_blocks subs M).flatten = sep_concat (subs.map SSAEvent.text) := by
  rw [create_text_blocks, create_text_blocks_go_flatten]
  rfl

theorem create_text_blocks_single {subs : List SSAEvent} {M : Nat}
    (h : (create_text_blocks subs M).length = 1) :
    create_text_blocks subs M = [sep_concat (subs.map SSAEvent.text)] := by
  obtain ⟨b, hb⟩ := List.length_eq_one.mp h
  have hflat := create_text_blocks_flatten subs M
  rw [hb] at hflat ⊢
  simp only [List.flatten_cons, List.flatten_nil, List.append_nil] at hflat
  rw [hflat]

theorem create_text_blocks_go_length_le (M : Nat) (subs : List SSAEvent) :
    ∀ (cur : Str) (blocks : List Str),
      (∀ e ∈ subs, e.text.length < M) →
      (∀ b ∈ blocks, b.length ≤ M + 1) →
      cur.length ≤ M + 1 →
      ∀ b ∈ create_text_blocks_go M subs cur blocks, b.length ≤ M + 1 := by
  induction subs with
  | nil =>
    intro cur blocks _ hb hc b hmem
    simp only [create_text_blocks_go] at hmem
    rcases List.mem_append.mp hmem with h | h
    · exact hb b h
    · rw [List.mem_singleton.mp h]
      exact hc
  | cons e rest ih =>
    intro cur blocks hall hb hc b hmem
    have he : e.text.length < M := hall e (by simp)
    have hall' : ∀ x ∈ rest, x.text.length < M := fun x hx => hall x (by simp [hx])
    simp only [create_text_blocks_go] at hmem
    split at hmem
    · rename_i hlt
      refine ih _ _ hall' hb ?_ b hmem
      have : (cur ++ (e.text ++ nn)).length = cur.length + e.text.length + 2 := by
        simp [nn]
        omega
      omega
    · refine ih _ _ hall' ?_ ?_ b hmem
      · intro x hx
        rcases List.mem_append.mp hx with h | h
        · exact hb x h
        · rw [List.mem_singleton.mp h]
          exact hc
      · have : (e.text ++ nn).length = e.text.length + 2 := by simp [nn]
        omega

theorem create_go_eq_greedy_go (M : Nat) (subs : List SSAEvent) :
    ∀ (cur : Str) (blocks : List Str), cur ≠ [] ∨ subs ≠ [] →
      create_text_blocks_go M subs cur blocks =
        greedy_accumulate_flush_go M (subs.map SSAEvent.text) cur blocks := by
  induction subs with
  | nil =>
    intro cur blocks h
    have hcur : cur ≠ [] := by
      rcases h with h | h
      · exact h
      · simp at h
    simp [create_text_blocks_go, greedy_accumulate_flush_go, hcur]
  | cons e rest ih =>
    intro cur blocks _
    simp only [create_text_blocks_go, List.map_cons, greedy_accumulate_flush_go]
    by_cases hlt : cur.length + e.text.length < M
    · rw [if_pos hlt, if_neg (by omega)]
      exact ih _ _ (Or.inl (by simp [nn]))
    · rw [if_neg hlt, if_pos (by omega)]
      exact ih _ _ (Or.inl (by simp [nn]))

theorem pySplit_sep_concat (ts : List Str)
    (h : ∀ t ∈ ts, hasSub nn t = false ∧ t.getLast? ≠ some '\n') :
    pySplit '\n' '\n' (sep_concat ts) = ts ++ [[]] := by
  induction ts with
  | nil => simp [sep_concat_nil, pySplit]
  | cons t ts' ih =>
    have ht := h t (by simp)
    have h' : ∀ x ∈ ts', hasSub nn x = false ∧ x.getLast? ≠ some '\n' :=
      fun x hx => h x (List.mem_cons_of_mem _ hx)
    rw [sep_concat_cons, List.append_assoc,
      show nn ++ sep_concat ts' = '\n' :: '\n' :: sep_concat ts' from rfl,
      pySplit_append_sep t _ ht.1 ht.2, ih h']
    rfl

theorem discard_trailing_empty_concat (ts : List Str) :
    discard_trailing_empty (ts ++ [[]]) = ts := by
  simp [discard_trailing_empty, List.getLast?_concat, List.dropLast_concat]

/-! ### Claims C4, C5, C9, C10: the Text Block Batcher -/

/-- Claim C10: applied to an empty track, the batcher returns exactly one
block, the empty string; line 138 appends the running block
unconditionally even when no cue was ever accumulated. -/
theorem c10_empty_track_single_empty_block (M : Nat) :
    create_text_blocks [] M = [[]] := rfl

/-- Claim C9: if every cue text is strictly shorter than the maximum M,
then every block the batcher emits has length at most M + 1 (the threshold
check on line 133 does not count the two separator characters appended to
the candidate cue, so a block may end up one character over M, as the
witness block "a\n\n" for M = 2 shows, but never more). -/
theorem c9_block_length_bound (subs : List SSAEvent) (M : Nat)
    (h : ∀ e ∈ subs, e.text.length < M) :
    ∀ b ∈ create_text_blocks subs M, b.length ≤ M + 1 := by
  refine create_text_blocks_go_length_le M subs [] [] h ?_ ?_
  · intro b hb
    simp at hb
  · simp

theorem c9_block_length_bound_witness :
    (∀ e ∈ [({ start := 0, stop := 0, text := ['a'] } : SSAEvent)], e.text.length < 2) ∧
      ∀ b ∈ create_text_blocks [{ start := 0, stop := 0, text := ['a'] }] 2,
        b.length ≤ 2 + 1 :=
  ⟨by decide, c9_block_length_bound [{ start := 0, stop := 0, text := ['a'] }] 2 (by decide)⟩

/-- Claim C5 counterexample: on the empty sequence of cue texts the code
(line 138) appends the empty running block and returns [""], while the
reference policy, which appends the final running block only when it is
non-empty, returns []. -/
theorem c5_counterexample :
    create_text_blocks [] 5 ≠ greedy_accumulate_flush_spec [] 5 := by
  decide

/-- Claim C5 (amended): for every NON-EMPTY sequence of cue texts and every
maximum, the batcher equals the spec's greedy accumulate-then-flush
reference definition; on the empty sequence the two differ (the code
emits one empty block, the reference emits none). -/
theorem c5_equals_greedy_reference (subs : List SSAEvent) (M : Nat) (h : subs ≠ []) :
    create_text_blocks subs M = greedy_accumulate_flush_spec (subs.map SSAEvent.text) M :=
  create_go_eq_greedy_go M subs [] [] (Or.inr h)

theorem c5_equals_greedy_reference_witness :
    ([({ start := 0, stop := 0, text := ['a'] } : SSAEvent), { start := 0, stop := 0, text := ['b'] }] ≠ []) ∧
      create_text_blocks [{ start := 0, stop := 0, text := ['a'] }, { start := 0, stop := 0, text := ['b'] }] 4 =
        greedy_accumulate_flush_spec
          ([({ start := 0, stop := 0, text := ['a'] } : SSAEvent), { start := 0, stop := 0, text := ['b'] }].map SSAEvent.text) 4 :=
  ⟨by decide,
    c5_equals_greedy_reference
      [{ start := 0, stop := 0, text := ['a'] }, { start := 0, stop := 0, text := ['b'] }] 4 (by decide)⟩

/-- Claim C4 counterexample: for the single cue text "a\n\nb" (which
contains the double-newline separator) the recovery procedure returns
["a", "b"], not the original ["a\n\nb"], so the round trip fails as
universally stated. -/
theorem c4_counterexample :
    recover_cue_texts
        (create_text_blocks [{ start := 0, stop := 0, text := ['a', '\n', '\n', 'b'] }] 10) ≠
      [({ start := 0, stop := 0, text := ['a', '\n', '\n', 'b'] } : SSAEvent)].map SSAEvent.text := by
  decide

/-- Claim C4 (amended): for every sequence of cue texts none of which
contains the double-newline separator or ends with a newline character
(in particular for all marker-encoded cue texts, which contain no raw
newlines) and every maximum, concatenating the batcher's blocks, splitting
on the double newline and discarding the trailing empty element recovers
exactly the original ordered cue texts. -/
theorem c4_batcher_split_roundtrip (subs : List SSAEvent) (M : Nat)
    (h : ∀ t ∈ subs.map SSAEvent.text, hasSub nn t = false ∧ t.getLast? ≠ some '\n') :
    recover_cue_texts (create_text_blocks subs M) = subs.map SSAEvent.text := by
  rw [recover_cue_texts, create_text_blocks_flatten, pySplit_sep_concat _ h,
    discard_trailing_empty_concat]

theorem c4_batcher_split_roundtrip_witness :
    (∀ t ∈ [({ start := 0, stop := 0, text := ['a'] } : SSAEvent), { start := 0, stop := 0, text := ['b'] }].map SSAEvent.text,
        hasSub nn t = false ∧ t.getLast? ≠ some '\n') ∧
      recover_cue_texts
          (create_text_blocks [{ start := 0, stop := 0, text := ['a'] }, { start := 0, stop := 0, text := ['b'] }] 4) =
        [({ start := 0, stop := 0, text := ['a'] } : SSAEvent), { start := 0, stop := 0, text := ['b'] }].map SSAEvent.text :=
  ⟨by decide,
    c4_batcher_split_roundtrip
      [{ start := 0, stop := 0, text := ['a'] }, { start := 0, stop := 0, text := ['b'] }] 4 (by decide)⟩

/-! ### Claims C1, C2, C6: the Bilingual Merger -/

theorem foldl_append_flatten (g : Str × Str → Str) (l : List (Str × Str)) :
    ∀ acc : Str, l.foldl (fun a p => a ++ g p) acc = acc ++ (l.map g).flatten := by
  induction l with
  | nil =>
    intro acc
    simp
  | cons p ps ih =>
    intro acc
    simp [ih, List.append_assoc]

theorem pyJoin_eq_intercalate (sep : Str) (xs : List Str) :
    pyJoin sep xs = List.intercalate sep xs := by
  induction xs with
  | nil => simp [pyJoin, List.intercalate]
  | cons x xs ih =>
    cases xs with
    | nil => simp [pyJoin, List.intercalate]
    | cons y ys =>
      rw [show pyJoin sep (x :: y :: ys) = x ++ (sep ++ pyJoin sep (y :: ys)) from rfl, ih]
      simp [List.intercalate, List.intersperse_cons_cons, List.append_assoc]

/-- Claim C1: when the marker-split line counts agree (with empty and
whitespace-only translated segments already discarded), the merged cue
text is exactly the concatenation, in order, of one group per line pair,
each group being the original line, a line break, the parenthesized
translated line, and the "\r\n\r\n" that renders as a blank line; and
there are exactly as many groups as original lines. -/
theorem c1_equal_line_counts_interleave (o t : Str)
    (h : (original_lines o).length = (translated_lines t).length) :
    merged_cue_text o t =
      (((original_lines o).zip (translated_lines t)).map interleaved_group).flatten ∧
      (((original_lines o).zip (translated_lines t)).map interleaved_group).length =
        (original_lines o).length := by
  constructor
  · rw [merged_cue_text, if_pos h]
    have hf := foldl_append_flatten interleaved_group
      ((original_lines o).zip (translated_lines t)) []
    simpa [interleaved_group] using hf
  · rw [List.length_map, List.length_zip, h, Nat.min_self]

theorem c1_equal_line_counts_interleave_witness :
    ((original_lines ['a', '\\', 'N', 'b']).length =
        (translated_lines ['x', '\\', 'N', 'y']).length) ∧
      merged_cue_text ['a', '\\', 'N', 'b'] ['x', '\\', 'N', 'y'] =
        (((original_lines ['a', '\\', 'N', 'b']).zip
            (translated_lines ['x', '\\', 'N', 'y'])).map interleaved_group).flatten :=
  ⟨by decide, (c1_equal_line_counts_interleave ['a', '\\', 'N', 'b'] ['x', '\\', 'N', 'y'] (by decide)).1⟩

/-- Claim C2: when the marker-split line counts differ (after discarding
empty and whitespace-only translated segments), the merged cue text is
all original lines joined by single newlines, then the "\r\n\r\n" that
renders as a blank line, then all translated lines each wrapped in
parentheses and joined by single newlines, with no interleaving. -/
theorem c2_mismatch_concatenates (o t : Str)
    (h : (original_lines o).length ≠ (translated_lines t).length) :
    merged_cue_text o t =
      List.intercalate ['\n'] (original_lines o) ++
        (['\r', '\n', '\r', '\n'] ++
          List.intercalate ['\n'] ((translated_lines t).map (fun l => '(' :: (l ++ [')'])))) := by
  rw [merged_cue_text, if_neg h, pyJoin_eq_intercalate, pyJoin_eq_intercalate,
    List.append_assoc]

theorem c2_mismatch_concatenates_witness :
    ((original_lines ['a', '\\', 'N', 'b']).length ≠ (translated_lines ['x']).length) ∧
      merged_cue_text ['a', '\\', 'N', 'b'] ['x'] =
        List.intercalate ['\n'] (original_lines ['a', '\\', 'N', 'b']) ++
          (['\r', '\n', '\r', '\n'] ++
            List.intercalate ['\n'] ((translated_lines ['x']).map (fun l => '(' :: (l ++ [')'])))) :=
  ⟨by decide, c2_mismatch_concatenates ['a', '\\', 'N', 'b'] ['x'] (by decide)⟩

/-- Claim C6: the merge fails exactly when the original and translated
tracks have different cue counts; the length check on line 103 precedes
construction of any merged event, the failure is the distinguishable
mismatch message (the specific ValueError of lines 104-106), and when the
counts agree the merge succeeds and returns exactly the merged file. -/
theorem c6_merge_error_iff_count_mismatch (orig trans : List SSAEvent) :
    (generate_merged_subtitles orig trans = Except.error merge_error_message ↔
        orig.length ≠ trans.length) ∧
      (generate_merged_subtitles orig trans = Except.ok (create_merged_ssa_file orig trans) ↔
        orig.length = trans.length) := by
  by_cases h : orig.length = trans.length <;>
    simp [generate_merged_subtitles, h]

theorem c6_merge_error_iff_count_mismatch_witness :
    generate_merged_subtitles [{ start := 0, stop := 0, text := ['a'] }] [] =
        Except.error merge_error_message ∧
      generate_merged_subtitles [{ start := 0, stop := 0, text := ['a'] }]
          [{ start := 0, stop := 1, text := ['x'] }] =
        Except.ok (create_merged_ssa_file [{ start := 0, stop := 0, text := ['a'] }]
          [{ start := 0, stop := 1, text := ['x'] }]) :=
  ⟨(c6_merge_error_iff_count_mismatch [{ start := 0, stop := 0, text := ['a'] }] []).1.mpr
      (by decide),
   (c6_merge_error_iff_count_mismatch [{ start := 0, stop := 0, text := ['a'] }]
      [{ start := 0, stop := 1, text := ['x'] }]).2.mpr (by decide)⟩

/-! ### Claim C3: the Cue Reconstructor under an identity translation -/

theorem starts_nonspace_cons (c : Char) (s : Str) :
    starts_nonspace (c :: s) = !isPySpace c := rfl

theorem lstrip_cons_nonspace {c : Char} (s : Str) (h : isPySpace c = false) :
    lstrip (c :: s) = c :: s := by
  simp [lstrip, List.dropWhile_cons, h]

theorem ends_nonspace_append (a b : Str) (h : ends_nonspace b = true) :
    ends_nonspace (a ++ b) = true := by
  rw [ends_nonspace] at h ⊢
  rw [List.reverse_append]
  cases hb : b.reverse with
  | nil =>
    rw [hb] at h
    simp [starts_nonspace] at h
  | cons c rb =>
    rw [hb] at h
    simpa [starts_nonspace_cons] using h

theorem rstrip_append_nn (x : Str) (h : ends_nonspace x = true) :
    rstrip (x ++ nn) = x := by
  rw [ends_nonspace] at h
  cases hx : x.reverse with
  | nil =>
    rw [hx] at h
    simp [starts_nonspace] at h
  | cons c rx =>
    rw [hx] at h
    have hc : isPySpace c = false := by simpa [starts_nonspace_cons] using h
    have hnl : isPySpace '\n' = true := by decide
    have hdrop : (x ++ nn).reverse.dropWhile isPySpace = c :: rx := by
      rw [List.reverse_append, hx,
        show nn.reverse ++ (c :: rx) = '\n' :: '\n' :: c :: rx from rfl,
        List.dropWhile_cons, if_pos hnl, List.dropWhile_cons, if_pos hnl,
        List.dropWhile_cons, if_neg (by simp [hc])]
    rw [rstrip, hdrop, ← hx, List.reverse_reverse]

theorem pyStrip_wrap (x : Str) (hs : starts_nonspace x = true) (he : ends_nonspace x = true) :
    pyStrip (x ++ nn) = x := by
  cases x with
  | nil => simp [starts_nonspace] at hs
  | cons c s =>
    have hc : isPySpace c = false := by simpa [starts_nonspace_cons] using hs
    rw [pyStrip, show (c :: s) ++ nn = c :: (s ++ nn) from rfl, lstrip_cons_nonspace _ hc]
    exact rstrip_append_nn (c :: s) he

theorem pyJoin_starts_nonspace (t0 : Str) (rest : List Str) (h : starts_nonspace t0 = true) :
    starts_nonspace (pyJoin nn (t0 :: rest)) = true := by
  cases t0 with
  | nil => simp [starts_nonspace] at h
  | cons c s =>
    cases rest with
    | nil => exact h
    | cons y ys =>
      rw [show pyJoin nn ((c :: s) :: y :: ys) = (c :: s) ++ (nn ++ pyJoin nn (y :: ys)) from rfl]
      simpa [starts_nonspace_cons] using h

theorem pyJoin_ends_nonspace (ts : List Str) (tl : Str) (hl : ts.getLast? = some tl)
    (h : ends_nonspace tl = true) : ends_nonspace (pyJoin nn ts) = true := by
  induction ts with
  | nil => simp at hl
  | cons t ts' ih =>
    cases ts' with
    | nil =>
      rw [List.getLast?_singleton] at hl
      obtain rfl := Option.some.inj hl
      exact h
    | cons y ys =>
      have hl' : (y :: ys).getLast? = some tl := by rwa [List.getLast?_cons_cons] at hl
      rw [show pyJoin nn (t :: y :: ys) = t ++ (nn ++ pyJoin nn (y :: ys)) from rfl,
        ← List.append_assoc]
      exact ends_nonspace_append _ _ (ih hl')

theorem pySplit_pyJoin (ts : List Str) (hne : ts ≠ [])
    (h : ∀ t ∈ ts, hasSub nn t = false ∧ t.getLast? ≠ some '\n') :
    pySplit '\n' '\n' (pyJoin nn ts) = ts := by
  induction ts with
  | nil => exact absurd rfl hne
  | cons t ts' ih =>
    cases ts' with
    | nil =>
      rw [show pyJoin nn [t] = t from rfl, pySplit_no_sep t (h t (by simp)).1]
    | cons y ys =>
      have ht := h t (by simp)
      have h' : ∀ x ∈ y :: ys, hasSub nn x = false ∧ x.getLast? ≠ some '\n' :=
        fun x hx => h x (List.mem_cons_of_mem _ hx)
      rw [show pyJoin nn (t :: y :: ys) = t ++ ('\n' :: '\n' :: pyJoin nn (y :: ys)) from rfl,
        pySplit_append_sep t _ ht.1 ht.2, ih (by simp) h']

theorem sep_concat_eq_pyJoin (ts : List Str) (hne : ts ≠ []) :
    sep_concat ts = pyJoin nn ts ++ nn := by
  induction ts with
  | nil => exact absurd rfl hne
  | cons t ts' ih =>
    cases ts' with
    | nil => simp [sep_concat_cons, sep_concat_nil, pyJoin]
    | cons y ys =>
      rw [sep_concat_cons, ih (by simp),
        show pyJoin nn (t :: y :: ys) = t ++ (nn ++ pyJoin nn (y :: ys)) from rfl]
      simp [List.append_assoc]

theorem reconstruct_single_block (ts : List Str)
    (hclean : ∀ t ∈ ts, hasSub nn t = false ∧ t.getLast? ≠ some '\n')
    (hfirst : starts_nonspace ts.headI = true)
    (hlast : ends_nonspace (ts.getLastD []) = true) :
    pySplit '\n' '\n' (pyStrip (sep_concat ts)) = ts := by
  obtain ⟨t0, rest, rfl⟩ : ∃ t0 rest, ts = t0 :: rest := by
    cases ts with
    | nil => simp [List.headI, starts_nonspace] at hfirst
    | cons a l => exact ⟨a, l, rfl⟩
  have hne : t0 :: rest ≠ [] := by simp
  obtain ⟨tl, hgl⟩ : ∃ tl, (t0 :: rest).getLast? = some tl := by
    cases hg : (t0 :: rest).getLast? with
    | none => simp [List.getLast?_eq_none_iff] at hg
    | some tl => exact ⟨tl, rfl⟩
  have hlast' : ends_nonspace tl = true := by
    rw [List.getLastD_eq_getLast?, hgl, Option.getD_some] at hlast
    exact hlast
  have hfirst' : starts_nonspace t0 = true := hfirst
  rw [sep_concat_eq_pyJoin _ hne,
    pyStrip_wrap _ (pyJoin_starts_nonspace t0 rest hfirst')
      (pyJoin_ends_nonspace _ tl hgl hlast'),
    pySplit_pyJoin _ hne hclean]

/-- Claim C3 counterexample: two one-character cues with maximum 4 produce
two blocks; "\n\n".join of blocks that each already end in "\n\n" yields a
quadruple newline at the block boundary, so the strip-and-split recovers
three segments ["a", "", "b"], not two — the claimed identity round trip
fails as soon as the batcher emits more than one block. -/
theorem c3_counterexample :
    (reconstruct_translated_events
        (create_text_blocks
          [{ start := 0, stop := 0, text := ['a'] }, { start := 0, stop := 0, text := ['b'] }]
          4)).length ≠
      ([({ start := 0, stop := 0, text := ['a'] } : SSAEvent),
          { start := 0, stop := 0, text := ['b'] }]).length := by
  decide

/-- Claim C3 (amended): for every track of at least one cue WHOSE BATCHING
YIELDS A SINGLE BLOCK, where no cue text contains the double-newline
separator or ends with a newline, the first cue text starts with a
non-whitespace character and the last ends with one, joining the
identity-translated blocks, stripping and splitting recovers exactly N
segments, and segment i equals the text of original cue i.  (With two or
more blocks, the "\n\n".join of "\n\n"-terminated blocks makes extra empty
segments, as the counterexample shows.) -/
theorem c3_single_block_roundtrip (subs : List SSAEvent) (M : Nat)
    (hone : (create_text_blocks subs M).length = 1)
    (hclean : ∀ t ∈ subs.map SSAEvent.text, hasSub nn t = false ∧ t.getLast? ≠ some '\n')
    (hfirst : starts_nonspace (subs.map SSAEvent.text).headI = true)
    (hlast : ends_nonspace ((subs.map SSAEvent.text).getLastD []) = true) :
    reconstruct_translated_events (create_text_blocks subs M) = subs.map SSAEvent.text ∧
      (reconstruct_translated_events (create_text_blocks subs M)).length = subs.length := by
  have key : reconstruct_translated_events (create_text_blocks subs M) =
      subs.map SSAEvent.text := by
    rw [reconstruct_translated_events, create_text_blocks_single hone,
      show pyJoin nn [sep_concat (subs.map SSAEvent.text)] =
        sep_concat (subs.map SSAEvent.text) from rfl]
    exact reconstruct_single_block _ hclean hfirst hlast
  exact ⟨key, by rw [key, List.length_map]⟩

theorem c3_single_block_roundtrip_witness :
    ((create_text_blocks
        [{ start := 0, stop := 0, text := ['a'] }, { start := 0, stop := 0, text := ['b'] }]
        100).length = 1) ∧
      reconstruct_translated_events
          (create_text_blocks
            [{ start := 0, stop := 0, text := ['a'] }, { start := 0, stop := 0, text := ['b'] }]
            100) =
        [({ start := 0, stop := 0, text := ['a'] } : SSAEvent),
          { start := 0, stop := 0, text := ['b'] }].map SSAEvent.text :=
  ⟨by decide,
    (c3_single_block_roundtrip
      [{ start := 0, stop := 0, text := ['a'] }, { start := 0, stop := 0, text := ['b'] }] 100
      (by decide) (by decide) (by decide) (by decide)).1⟩

/-! ### Claim C8: the adapter's marker substitution round trip -/

theorem hasSub_tail_false {pat : Str} {c : Char} {s : Str}
    (h : hasSub pat (c :: s) = false) : hasSub pat s = false :=
  (hasSub_cons_false h).2

theorem pyReplace2_ne_nil (p0 p1 : Char) (r : Str) (hr : r ≠ []) (c : Char) (s : Str) :
    pyReplace2 p0 p1 r (c :: s) ≠ [] := by
  cases s with
  | nil => simp [pyReplace2]
  | cons c1 rest =>
    simp only [pyReplace2]
    split
    · simp [hr]
    · simp

theorem substitute_head (c : Char) (s : Str) :
    (∃ y, c :: s = '\\' :: 'N' :: y ∧
        substitute_marker (c :: s) = '-' :: '-' :: substitute_marker y) ∨
      (∃ z, substitute_marker (c :: s) = c :: z) := by
  cases s with
  | nil => exact Or.inr ⟨[], rfl⟩
  | cons c1 r =>
    by_cases hm : c = '\\' ∧ c1 = 'N'
    · obtain ⟨rfl, rfl⟩ := hm
      exact Or.inl ⟨r, rfl, by simp [substitute_marker, pyReplace2]⟩
    · refine Or.inr ⟨substitute_marker (c1 :: r), ?_⟩
      simp only [substitute_marker, pyReplace2]
      rw [if_neg hm]

theorem marker_roundtrip_aux : ∀ (n : Nat) (s : Str), s.length ≤ n →
    hasSub ['-', '-'] s = false → hasSub ['-', '\\', 'N'] s = false →
    reverse_marker (substitute_marker s) = s := by
  intro n
  induction n with
  | zero =>
    intro s hlen _ _
    have hs : s = [] := List.length_eq_zero.mp (Nat.le_zero.mp hlen)
    rw [hs]
    rfl
  | succ n ih =>
    intro s hlen h1 h2
    match s with
    | [] => rfl
    | [c] => rfl
    | c0 :: c1 :: rest =>
      by_cases hm : c0 = '\\' ∧ c1 = 'N'
      · obtain ⟨rfl, rfl⟩ := hm
        have e1 : substitute_marker ('\\' :: 'N' :: rest) =
            '-' :: '-' :: substitute_marker rest := by
          simp [substitute_marker, pyReplace2]
        have e2 : reverse_marker ('-' :: '-' :: substitute_marker rest) =
            '\\' :: 'N' :: reverse_marker (substitute_marker rest) := by
          simp [reverse_marker, pyReplace2]
        have hlen' : rest.length ≤ n := by
          simp only [List.length_cons] at hlen
          omega
        rw [e1, e2, ih rest hlen' (hasSub_tail_false (hasSub_tail_false h1))
          (hasSub_tail_false (hasSub_tail_false h2))]
      · have e1 : substitute_marker (c0 :: c1 :: rest) =
            c0 :: substitute_marker (c1 :: rest) := by
          simp only [substitute_marker, pyReplace2]
          rw [if_neg hm]
        have hlen' : (c1 :: rest).length ≤ n := by
          simp only [List.length_cons] at hlen ⊢
          omega
        have key := ih (c1 :: rest) hlen' (hasSub_tail_false h1) (hasSub_tail_false h2)
        rcases substitute_head c1 rest with ⟨y, heq, hsub⟩ | ⟨z, hsub⟩
        · have hc0 : ¬ c0 = '-' := by
            rintro rfl
            rw [heq] at h2
            simp [hasSub, startsWith] at h2
          rw [e1, hsub]
          have e2 : reverse_marker (c0 :: '-' :: '-' :: substitute_marker y) =
              c0 :: reverse_marker ('-' :: '-' :: substitute_marker y) := by
            simp only [reverse_marker, pyReplace2]
            rw [if_neg (by rintro ⟨rfl, -⟩; exact hc0 rfl)]
          rw [e2, ← hsub, key]
        · have hne : ¬(c0 = '-' ∧ c1 = '-') := by
            rintro ⟨rfl, rfl⟩
            simp [hasSub, startsWith] at h1
          rw [e1, hsub]
          have e2 : reverse_marker (c0 :: c1 :: z) = c0 :: reverse_marker (c1 :: z) := by
            simp only [reverse_marker, pyReplace2]
            rw [if_neg hne]
          rw [e2, ← hsub, key]

/-- Claim C8 counterexample: the block "--" contains the placeholder
already; an identity backend leaves it as "--" and the reverse
substitution turns it into the marker "\N", so the round trip is not the
identity for every block. -/
theorem c8_counterexample :
    reverse_marker (substitute_marker ['-', '-']) ≠ ['-', '-'] := by
  decide

/-- Claim C8 (amended): for every text block in which the two-character
placeholder "--" does not occur and in which no hyphen immediately
precedes the line-break marker "\N", substituting the marker by the
placeholder and, with an identity backend, reversing the substitution
returns the block exactly. -/
theorem c8_marker_substitution_roundtrip (s : Str)
    (h1 : hasSub ['-', '-'] s = false) (h2 : hasSub ['-', '\\', 'N'] s = false) :
    reverse_marker (substitute_marker s) = s :=
  marker_roundtrip_aux s.length s (Nat.le_refl _) h1 h2

theorem c8_marker_substitution_roundtrip_witness :
    (hasSub ['-', '-'] ['h', 'i', '\\', 'N', 'y', 'o'] = false) ∧
      (hasSub ['-', '\\', 'N'] ['h', 'i', '\\', 'N', 'y', 'o'] = false) ∧
      reverse_marker (substitute_marker ['h', 'i', '\\', 'N', 'y', 'o']) =
        ['h', 'i', '\\', 'N', 'y', 'o'] :=
  ⟨by decide, by decide,
    c8_marker_substitution_roundtrip ['h', 'i', '\\', 'N', 'y', 'o'] (by decide) (by decide)⟩

/-! ### Claim C7: the File Identity Resolver round trip -/

theorem startsWith_nil_pat (s : Str) : startsWith s [] = true := by
  cases s <;> rfl

theorem startsWith_append_of_le (pat a b : Str) (h : pat.length ≤ a.length) :
    startsWith (a ++ b) pat = startsWith a pat := by
  induction pat generalizing a with
  | nil => rw [startsWith_nil_pat, startsWith_nil_pat]
  | cons p ps ih =>
    cases a with
    | nil => simp at h
    | cons x a' =>
      simp only [List.cons_append, startsWith]
      congr 1
      exact ih a' (by simpa using h)

theorem replace_tag_cons (l1 l2 m1 m2 c : Char) (y : Str)
    (h : startsWith (c :: y) (tagPat l1 l2) = false) :
    replace_tag l1 l2 m1 m2 (c :: y) = c :: replace_tag l1 l2 m1 m2 y := by
  match y with
  | [] => rfl
  | [y1] => rfl
  | [y1, y2] => rfl
  | [y1, y2, y3] => rfl
  | [y1, y2, y3, y4] => rfl
  | [y1, y2, y3, y4, y5] => rfl
  | y1 :: y2 :: y3 :: y4 :: y5 :: y6 :: rest =>
    simp only [replace_tag]
    rw [if_neg (by simp [h])]

theorem replace_tag_match (l1 l2 m1 m2 : Char) (rest : Str) :
    replace_tag l1 l2 m1 m2 (tagPat l1 l2 ++ rest) =
      tagPat m1 m2 ++ replace_tag l1 l2 m1 m2 rest := by
  show replace_tag l1 l2 m1 m2 ('.' :: l1 :: l2 :: '.' :: 's' :: 'r' :: 't' :: rest) = _
  simp only [replace_tag]
  rw [if_pos (by simp [startsWith, tagPat])]

theorem replace_tag_unique (l1 l2 m1 m2 : Char) (stem : Str)
    (hA : hasSub (tagPat l1 l2) (stem ++ (tagPat l1 l2).dropLast) = false) :
    replace_tag l1 l2 m1 m2 (stem ++ tagPat l1 l2) = stem ++ tagPat m1 m2 := by
  induction stem with
  | nil =>
    have hmatch := replace_tag_match l1 l2 m1 m2 []
    simpa using hmatch
  | cons c stem' ih =>
    have hA2 := hA
    rw [List.cons_append] at hA2
    have hA' := hasSub_tail_false hA2
    have h0 := (hasSub_cons_false hA2).1
    have hsw : startsWith (c :: (stem' ++ tagPat l1 l2)) (tagPat l1 l2) = false := by
      have heq : c :: (stem' ++ tagPat l1 l2) =
          (c :: (stem' ++ (tagPat l1 l2).dropLast)) ++ ['t'] := by
        simp [tagPat, List.append_assoc]
      have hlen : (tagPat l1 l2).length ≤ (c :: (stem' ++ (tagPat l1 l2).dropLast)).length := by
        simp [tagPat]
      rw [heq, startsWith_append_of_le _ _ _ hlen]
      exact h0
    rw [List.cons_append, replace_tag_cons _ _ _ _ _ _ hsw, ih hA', ← List.cons_append]

theorem extract_language_append (stem : Str) (a b : Char)
    (ha : isLowerAlpha a = true) (hb : isLowerAlpha b = true) :
    extract_language (stem ++ tagPat a b) = some (a, b) := by
  have hrev : (stem ++ tagPat a b).reverse =
      't' :: 'r' :: 's' :: '.' :: b :: a :: '.' :: stem.reverse := by
    rw [List.reverse_append]
    rfl
  unfold extract_language
  rw [hrev]
  simp [ha, hb]

theorem resolve_path_append (stem : Str) (l1 l2 m1 m2 : Char)
    (hl1 : isLowerAlpha l1 = true) (hl2 : isLowerAlpha l2 = true)
    (hA : hasSub (tagPat l1 l2) (stem ++ (tagPat l1 l2).dropLast) = false) :
    resolve_path (stem ++ tagPat l1 l2) m1 m2 = some (stem ++ tagPat m1 m2) := by
  rw [resolve_path, extract_language_append stem l1 l2 hl1 hl2]
  simp [get_file_path_for_language, replace_tag_unique l1 l2 m1 m2 stem hA]

/-- Claim C7 counterexample: for the path "a.fr.srt.en.srt" (tagged "en",
with the target tag pattern ".fr.srt" already occurring in the stem),
resolving to "fr" yields "a.fr.srt.fr.srt" and resolving back to "en"
replaces BOTH occurrences (Python str.replace replaces all), giving
"a.en.srt.en.srt" — not the original path, so the round trip fails as
universally stated. -/
theorem c7_counterexample :
    (resolve_path ['a', '.', 'f', 'r', '.', 's', 'r', 't', '.', 'e', 'n', '.', 's', 'r', 't']
          'f' 'r').bind
        (fun q => resolve_path q 'e' 'n') ≠
      some ['a', '.', 'f', 'r', '.', 's', 'r', 't', '.', 'e', 'n', '.', 's', 'r', 't'] := by
  decide

/-- Claim C7 (amended): for every path of the form stem ++ ".l1l2.srt"
with a valid two-letter tag, and every valid two-letter target tag, IF the
original tag pattern occurs nowhere but at the end and the target tag
pattern does not occur in the stem either, then resolving to the target
tag and back to the original tag restores exactly the original path. -/
theorem c7_resolver_roundtrip (stem : Str) (l1 l2 m1 m2 : Char)
    (hl1 : isLowerAlpha l1 = true) (hl2 : isLowerAlpha l2 = true)
    (hm1 : isLowerAlpha m1 = true) (hm2 : isLowerAlpha m2 = true)
    (hA : hasSub (tagPat l1 l2) (stem ++ (tagPat l1 l2).dropLast) = false)
    (hB : hasSub (tagPat m1 m2) (stem ++ (tagPat m1 m2).dropLast) = false) :
    (resolve_path (stem ++ tagPat l1 l2) m1 m2).bind (fun q => resolve_path q l1 l2) =
      some (stem ++ tagPat l1 l2) := by
  rw [resolve_path_append stem l1 l2 m1 m2 hl1 hl2 hA]
  exact resolve_path_append stem m1 m2 l1 l2 hm1 hm2 hB

theorem c7_resolver_roundtrip_witness :
    (hasSub (tagPat 'e' 'n') (['m', 'o', 'v'] ++ (tagPat 'e' 'n').dropLast) = false) ∧
      (hasSub (tagPat 'f' 'r') (['m', 'o', 'v'] ++ (tagPat 'f' 'r').dropLast) = false) ∧
      (resolve_path (['m', 'o', 'v'] ++ tagPat 'e' 'n') 'f' 'r').bind
          (fun q => resolve_path q 'e' 'n') =
        some (['m', 'o', 'v'] ++ tagPat 'e' 'n') :=
  ⟨by decide, by decide,
    c7_resolver_roundtrip ['m', 'o', 'v'] 'e' 'n' 'f' 'r' (by decide) (by decide) (by decide)
      (by decide) (by decide) (by decide)⟩

end LLSub
